import Mathlib

/-!
# Verification of the Herbst guided-reading companion core

Shallow embedding of the core control logic of `src/App.tsx`:

* `calculateTimestamps` — the timestamp allocator (App.tsx lines 63–86);
* `segMatches` / `findActiveIdx` — the sync loop's active-segment lookup
  (App.tsx lines 133–150, the `segments.findIndex` scan);
* the suggestopedia session cycle (`startSuggestopedia`, `stopSuggestopedia`,
  `skipToNextWord`, `runSuggestopediaCycle`, App.tsx lines 236–334), embedded
  as an explicit event/step semantics over the suspension points of the
  async cycle function;
* the `speak` promise wrapper (App.tsx lines 210–233).

JavaScript numbers are modelled as `ℚ` (exact rationals); the spec's
floating-point tolerances then hold with exact equality.  JS `findIndex`
returning `-1`/an index is modelled as `Option Nat`.  React `useState`
setters and the mutable refs are modelled as immediate writes to an explicit
state record on the single cooperative scheduling timeline.
-/

/-- One lexical or punctuation unit of the source text (types.ts `TextSegment`):
`text`, optional `translation`, `isWord`, and optional timing fields. -/
structure TextSegment where
  text : String
  translation : Option String
  isWord : Bool
  startTime : Option ℚ := none
  endTime : Option ℚ := none
deriving DecidableEq, Repr

/-- JS `text.includes(c)` for a single character `c`: some character of the
string equals `c` (structural form of `String.contains`, so that concrete
instances evaluate in the kernel). -/
def containsChar (s : String) (c : Char) : Bool :=
  s.data.contains c

/-- The per-segment weight of `calculateTimestamps` (App.tsx lines 67–74):
a non-word segment weighs 12 if its text contains `.`/`!`/`?`, else 6 if it
contains `,`/`;`/`:`, else 2; a word segment weighs its character length + 2. -/
def segWeight (s : TextSegment) : Nat :=
  if !s.isWord then
    if containsChar s.text '.' || containsChar s.text '!' || containsChar s.text '?' then 12
    else if containsChar s.text ',' || containsChar s.text ';' || containsChar s.text ':' then 6
    else 2
  else s.text.length + 2

/-- `totalWeight` of App.tsx line 76: the sum of all segment weights. -/
def totalWeight (segs : List TextSegment) : Nat :=
  (segs.map segWeight).sum

/-- Sum of the weights of the first `i` segments (the value of the source's
`currentAccumulatedTime` accumulator before stamping segment `i`, divided by
the duration-over-total-weight factor). -/
def weightBefore (segs : List TextSegment) (i : Nat) : Nat :=
  ((segs.map segWeight).take i).sum

/-- The start of the `i`-th timing window produced by the allocator:
`(weightBefore / totalWeight) * duration`. -/
def winStart (d : ℚ) (segs : List TextSegment) (i : Nat) : ℚ :=
  ((weightBefore segs i : ℚ) / (totalWeight segs : ℚ)) * d

/-- The stamping loop of App.tsx lines 78–85: walks the list with the
accumulated time `acc`, giving each segment the window
`[acc, acc + (weight / totalWeight) * duration]`.  `tw` is the total weight
computed once over the whole list (line 76). -/
def stampSegs (tw d : ℚ) (acc : ℚ) : List TextSegment → List TextSegment
  | [] => []
  | s :: rest =>
    { s with startTime := some acc,
             endTime := some (acc + ((segWeight s : ℚ) / tw) * d) } ::
      stampSegs tw d (acc + ((segWeight s : ℚ) / tw) * d) rest

/-- `calculateTimestamps` (App.tsx lines 63–86): compute all weights, total
them, then stamp each segment with its accumulated timing window. -/
def calculateTimestamps (duration : ℚ) (segs : List TextSegment) : List TextSegment :=
  stampSegs (totalWeight segs : ℚ) duration 0 segs

/-- Every weight is at least 2 (word: length + 2; punctuation: 12, 6 or 2). -/
lemma two_le_segWeight (s : TextSegment) : 2 ≤ segWeight s := by
  unfold segWeight
  rcases s.isWord with _ | _ <;> simp
  split
  · omega
  · split <;> omega

/-- A non-empty segment list has strictly positive total weight. -/
lemma totalWeight_pos {segs : List TextSegment} (hs : segs ≠ []) :
    0 < totalWeight segs := by
  rcases segs with _ | ⟨s, rest⟩
  · exact absurd rfl hs
  · have h2 := two_le_segWeight s
    simp only [totalWeight, List.map_cons, List.sum_cons]
    omega

lemma weightBefore_zero (segs : List TextSegment) : weightBefore segs 0 = 0 := rfl

lemma weightBefore_cons_succ (s : TextSegment) (rest : List TextSegment) (i : Nat) :
    weightBefore (s :: rest) (i + 1) = segWeight s + weightBefore rest i := by
  simp [weightBefore]

lemma weightBefore_length (segs : List TextSegment) :
    weightBefore segs segs.length = totalWeight segs := by
  simp only [weightBefore, totalWeight]
  have h : (segs.map segWeight).length = segs.length := List.length_map segs segWeight
  rw [← h, List.take_length]

/-- Prefix sums of weights are monotone in the cut point. -/
lemma weightBefore_mono (segs : List TextSegment) {i j : Nat} (hij : i ≤ j) :
    weightBefore segs i ≤ weightBefore segs j := by
  unfold weightBefore
  generalize segs.map segWeight = l
  induction l generalizing i j with
  | nil => simp
  | cons a t ih =>
    cases i with
    | zero => simp
    | succ i =>
      cases j with
      | zero => omega
      | succ j =>
        simp only [List.take_succ_cons, List.sum_cons]
        exact Nat.add_le_add_left (ih (Nat.le_of_succ_le_succ hij)) a

/-- Characterization of the allocator's stamping loop: position `i` of the
output is position `i` of the input with the accumulated timing window
attached. -/
lemma stampSegs_getElem? (tw d : ℚ) (segs : List TextSegment) (acc : ℚ) (i : Nat) :
    (stampSegs tw d acc segs)[i]? = (segs[i]?).map (fun s =>
      { s with startTime := some (acc + ((weightBefore segs i : ℚ) / tw) * d),
               endTime := some (acc + ((weightBefore segs (i + 1) : ℚ) / tw) * d) }) := by
  induction segs generalizing acc i with
  | nil => rfl
  | cons s rest ih =>
    cases i with
    | zero =>
      simp only [stampSegs, List.getElem?_cons_zero, Option.map_some]
      rw [weightBefore_zero, weightBefore_cons_succ]
      simp [weightBefore_zero]
    | succ i =>
      simp only [stampSegs, List.getElem?_cons_succ]
      rw [ih]
      rcases h : rest[i]? with _ | r
      · rfl
      · simp only [Option.map_some', Option.some.injEq, TextSegment.mk.injEq,
          weightBefore_cons_succ, true_and, and_true]
        constructor <;> · push_cast; ring

/-- Characterization of `calculateTimestamps` at each position. -/
lemma calculateTimestamps_getElem? (d : ℚ) (segs : List TextSegment) (i : Nat) :
    (calculateTimestamps d segs)[i]? = (segs[i]?).map (fun s =>
      { s with startTime := some (winStart d segs i),
               endTime := some (winStart d segs (i + 1)) }) := by
  unfold calculateTimestamps winStart
  rw [stampSegs_getElem?]
  simp

lemma stampSegs_length (tw d acc : ℚ) (segs : List TextSegment) :
    (stampSegs tw d acc segs).length = segs.length := by
  induction segs generalizing acc with
  | nil => rfl
  | cons s rest ih => simp [stampSegs, ih]

lemma calculateTimestamps_length (d : ℚ) (segs : List TextSegment) :
    (calculateTimestamps d segs).length = segs.length :=
  stampSegs_length _ _ _ _

lemma winStart_zero (d : ℚ) (segs : List TextSegment) : winStart d segs 0 = 0 := by
  simp [winStart, weightBefore_zero]

lemma winStart_mono {d : ℚ} (hd : 0 ≤ d) (segs : List TextSegment) {i j : Nat}
    (hij : i ≤ j) : winStart d segs i ≤ winStart d segs j := by
  unfold winStart
  apply mul_le_mul_of_nonneg_right _ hd
  rcases eq_or_lt_of_le (Nat.cast_nonneg (α := ℚ) (totalWeight segs)) with h0 | hpos
  · rw [← h0, div_zero, div_zero]
  · exact (div_le_div_iff_of_pos_right hpos).mpr
      (Nat.cast_le.mpr (weightBefore_mono segs hij))

lemma winStart_length {d : ℚ} (segs : List TextSegment) (hs : segs ≠ []) :
    winStart d segs segs.length = d := by
  unfold winStart
  rw [weightBefore_length, div_self, one_mul]
  exact_mod_cast (totalWeight_pos hs).ne'

/-- Field extraction: any segment found in the allocator's output carries the
accumulated window `[winStart i, winStart (i+1)]`. -/
lemma calcTs_fields {d : ℚ} {segs : List TextSegment} {i : Nat} {si : TextSegment}
    (h : (calculateTimestamps d segs)[i]? = some si) :
    si.startTime = some (winStart d segs i) ∧ si.endTime = some (winStart d segs (i + 1)) := by
  rw [calculateTimestamps_getElem?] at h
  rcases hh : segs[i]? with _ | s <;> rw [hh] at h
  · exact absurd h (by simp)
  · simp only [Option.map_some', Option.some.injEq] at h
    rw [← h]
    exact ⟨rfl, rfl⟩

/-- Example segments from the spec: `["Der", "Hund", "."]`. -/
def segDer : TextSegment := { text := "Der", translation := some "the", isWord := true }

def segHund : TextSegment := { text := "Hund", translation := some "dog", isWord := true }

def segDot : TextSegment := { text := ".", translation := none, isWord := false }

def exSegs : List TextSegment := [segDer, segHund, segDot]

/-- The weight rule exactly as claim C2 words it ("weight 12 if it IS a
sentence terminator (`.`, `!`, `?`), 6 if it IS a clause separator
(`,`, `;`, `:`), else 2"), for comparison with the source's `segWeight`,
which tests whether the text CONTAINS such a character. -/
def claimWeightC2 (s : TextSegment) : Nat :=
  if s.isWord then s.text.length + 2
  else if s.text = "." ∨ s.text = "!" ∨ s.text = "?" then 12
  else if s.text = "," ∨ s.text = ";" ∨ s.text = ":" then 6
  else 2

/-- The stamping loop driven by the claim-C2 weight rule. -/
def claimStampC2 (tw d : ℚ) (acc : ℚ) : List TextSegment → List TextSegment
  | [] => []
  | s :: rest =>
    { s with startTime := some acc,
             endTime := some (acc + ((claimWeightC2 s : ℚ) / tw) * d) } ::
      claimStampC2 tw d (acc + ((claimWeightC2 s : ℚ) / tw) * d) rest

/-- The whole allocator as claim C2 words it. -/
def claimCalcC2 (duration : ℚ) (segs : List TextSegment) : List TextSegment :=
  claimStampC2 ((segs.map claimWeightC2).sum : ℕ) duration 0 segs

def segX : TextSegment := { text := "x", translation := some "x", isWord := true }

def segCommaDot : TextSegment := { text := ",.", translation := none, isWord := false }

/-- A segment list on which the code's contains-based weights and the
claim's is-a-terminator weights disagree. -/
def exC2 : List TextSegment := [segX, segCommaDot]

/-- C2 counterexample: for the punctuation segment `",."`, the code's weight
is 12 (its text contains `.`), while the claim's rule gives 2 (the text is
neither a sentence terminator nor a clause separator), so at duration 15 the
code yields windows `[0,3)`, `[3,15)` but the claim's rule yields `[0,9)`,
`[9,15)`: the claim's universally quantified weight rule is false of the
code. -/
theorem c2_counterexample :
    segWeight segCommaDot = 12 ∧ claimWeightC2 segCommaDot = 2 ∧
    (calculateTimestamps 15 exC2).map (fun s => s.startTime) = [some 0, some 3] ∧
    (claimCalcC2 15 exC2).map (fun s => s.startTime) = [some 0, some 9] ∧
    calculateTimestamps 15 exC2 ≠ claimCalcC2 15 exC2 := by
  have hx : segWeight segX = 3 := by decide
  have hcd : segWeight segCommaDot = 12 := by decide
  have hcx : claimWeightC2 segX = 3 := by decide
  have hccd : claimWeightC2 segCommaDot = 2 := by decide
  refine ⟨hcd, hccd, ?_, ?_, ?_⟩ <;>
    norm_num [calculateTimestamps, claimCalcC2, stampSegs, claimStampC2, totalWeight,
      exC2, hx, hcd, hcx, hccd, TextSegment.mk.injEq]

/-- The window the allocator gives position `i`: share `(weight/total) * d`,
start times accumulating left-to-right from 0. -/
def allocWindowAt (d : ℚ) (segs : List TextSegment) (i : Nat) (s : TextSegment) : Prop :=
  (calculateTimestamps d segs)[i]? = some { s with
    startTime := some (((weightBefore segs i : ℚ) / (totalWeight segs : ℚ)) * d),
    endTime := some (((weightBefore segs (i + 1) : ℚ) / (totalWeight segs : ℚ)) * d) }

/-- The amended weight rule: contains-based classification of punctuation. -/
def amendedWeightRule (s : TextSegment) : Prop :=
  segWeight s = (if s.isWord then s.text.length + 2
    else if containsChar s.text '.' || containsChar s.text '!' || containsChar s.text '?' then 12
    else if containsChar s.text ',' || containsChar s.text ';' || containsChar s.text ':' then 6
    else 2)

/-- The spec's worked example, stamped: weights `[5,6,12]`, duration 23,
windows `[0,5)`, `[5,11)`, `[11,23)`. -/
def exSegsStamped : List TextSegment :=
  [{ segDer with startTime := some 0, endTime := some 5 },
   { segHund with startTime := some 5, endTime := some 11 },
   { segDot with startTime := some 11, endTime := some 23 }]

/-- C2 (amended): word weight = length + 2; punctuation weight 12 if the text
CONTAINS a sentence terminator (`.`, `!`, `?`), 6 if it contains a clause
separator (`,`, `;`, `:`), else 2; each segment's share is
`(weight/total) * duration`, accumulating left-to-right from 0; in
particular `["Der","Hund","."]` at duration 23 yields windows `[0,5)`,
`[5,11)`, `[11,23)`. -/
theorem c2_amended_thm (d : ℚ) (segs : List TextSegment) (i : Nat) (s : TextSegment)
    (h : segs[i]? = some s) :
    allocWindowAt d segs i s ∧ amendedWeightRule s ∧
    calculateTimestamps 23 exSegs = exSegsStamped := by
  refine ⟨?_, ?_, ?_⟩
  · unfold allocWindowAt
    rw [calculateTimestamps_getElem?, h, Option.map_some']
    rfl
  · unfold amendedWeightRule segWeight
    rcases s.isWord with _ | _ <;> simp
  · have hDer : segWeight segDer = 5 := by decide
    have hHund : segWeight segHund = 6 := by decide
    have hDot : segWeight segDot = 12 := by decide
    norm_num [calculateTimestamps, stampSegs, totalWeight, exSegs, exSegsStamped,
      hDer, hHund, hDot, TextSegment.mk.injEq]

/-- Witness for C2's amended theorem at segment 0 of the worked example. -/
theorem c2_witness :
    exSegs[0]? = some segDer ∧
    (allocWindowAt 23 exSegs 0 segDer ∧ amendedWeightRule segDer ∧
      calculateTimestamps 23 exSegs = exSegsStamped) :=
  ⟨rfl, c2_amended_thm 23 exSegs 0 segDer rfl⟩

/-- The timing invariants claim C3 lists, over an allocator output `out` and
the duration `d`: non-decreasing start times, `endTime ≥ startTime`,
non-overlap (`endTime i ≤ startTime j` for `i < j`), start at 0, adjacent
windows contiguous, and the last `endTime` equal to `d` (hence within 1e-6). -/
def timingSane (d : ℚ) (out : List TextSegment) : Prop :=
  (∀ (i j : Nat) (si sj : TextSegment), i ≤ j → out[i]? = some si → out[j]? = some sj →
    ∃ a b, si.startTime = some a ∧ sj.startTime = some b ∧ a ≤ b) ∧
  (∀ (i : Nat) (si : TextSegment), out[i]? = some si →
    ∃ a b, si.startTime = some a ∧ si.endTime = some b ∧ a ≤ b) ∧
  (∀ (i j : Nat) (si sj : TextSegment), i < j → out[i]? = some si → out[j]? = some sj →
    ∃ b a, si.endTime = some b ∧ sj.startTime = some a ∧ b ≤ a) ∧
  (∀ s0 : TextSegment, out[0]? = some s0 → s0.startTime = some 0) ∧
  (∀ (i : Nat) (si sj : TextSegment), out[i]? = some si → out[i + 1]? = some sj →
    si.endTime = sj.startTime) ∧
  (∀ sl : TextSegment, out.getLast? = some sl →
    ∃ b, sl.endTime = some b ∧ b = d ∧ |b - d| ≤ 1 / 1000000)

/-- C3: for every duration `d > 0` and non-empty segment list, the allocator
output has non-decreasing start times, `endTime ≥ startTime` per segment,
non-overlapping contiguous windows covering `[0, d]`, and final `endTime`
equal to `d` (within 1e-6 — in the rational model, exactly). -/
theorem c3_thm (d : ℚ) (segs : List TextSegment) (hd : 0 < d) (hs : segs ≠ []) :
    timingSane d (calculateTimestamps d segs) := by
  have hd0 : 0 ≤ d := le_of_lt hd
  refine ⟨?_, ?_, ?_, ?_, ?_, ?_⟩
  · intro i j si sj hij hi hj
    exact ⟨_, _, (calcTs_fields hi).1, (calcTs_fields hj).1, winStart_mono hd0 segs hij⟩
  · intro i si hi
    exact ⟨_, _, (calcTs_fields hi).1, (calcTs_fields hi).2,
      winStart_mono hd0 segs (Nat.le_succ i)⟩
  · intro i j si sj hij hi hj
    exact ⟨_, _, (calcTs_fields hi).2, (calcTs_fields hj).1, winStart_mono hd0 segs hij⟩
  · intro s0 h0
    rw [(calcTs_fields h0).1, winStart_zero]
  · intro i si sj hi hj
    rw [(calcTs_fields hi).2, (calcTs_fields hj).1]
  · intro sl hl
    have hlen : (calculateTimestamps d segs).length = segs.length :=
      calculateTimestamps_length d segs
    have hne : calculateTimestamps d segs ≠ [] := by
      intro hemp
      rw [hemp] at hlen
      exact hs (List.eq_nil_of_length_eq_zero hlen.symm)
    rw [List.getLast?_eq_getElem?] at hl
    have hi := (calcTs_fields (hlen ▸ hl)).2
    have hpos : 0 < segs.length := List.length_pos.mpr hs
    have hsucc : segs.length - 1 + 1 = segs.length := Nat.succ_pred_eq_of_pos hpos
    rw [hsucc, winStart_length segs hs] at hi
    exact ⟨d, hi, rfl, by simp⟩

/-- Witness for C3 at the worked example (duration 23, `["Der","Hund","."]`). -/
theorem c3_witness :
    (0 : ℚ) < 23 ∧ exSegs ≠ [] ∧ timingSane 23 (calculateTimestamps 23 exSegs) :=
  ⟨by decide, by decide, c3_thm 23 exSegs (by decide) (by decide)⟩

/-- The sync loop's per-segment test (App.tsx line 138):
`s.startTime !== undefined && currentTime >= s.startTime &&
currentTime <= (s.endTime || Infinity)`.  In JS, `s.endTime || Infinity`
is `Infinity` when `endTime` is `undefined` or `0` (both falsy), which
drops the upper bound, modelled by the `none`/`e = 0` cases. -/
def segMatches (p : ℚ) (s : TextSegment) : Bool :=
  match s.startTime with
  | none => false
  | some st =>
    decide (st ≤ p) && (match s.endTime with
      | none => true
      | some e => decide (e = 0) || decide (p ≤ e))

/-- JS `segments.findIndex(...)` of the sync loop, with `-1` modelled as
`none`: index of the first segment whose window contains the position. -/
def findActiveIdx (p : ℚ) : List TextSegment → Option Nat
  | [] => none
  | s :: rest => if segMatches p s then some 0 else (findActiveIdx p rest).map (· + 1)

/-- If some position of the list matches, the scan returns an index. -/
lemma findActiveIdx_isSome {p : ℚ} :
    ∀ (l : List TextSegment) (i : Nat) (x : TextSegment),
      l[i]? = some x → segMatches p x = true → (findActiveIdx p l).isSome = true := by
  intro l
  induction l with
  | nil => intro i x h _; exact absurd h (by simp)
  | cons a t ih =>
    intro i x h hx
    by_cases ha : segMatches p a
    · simp [findActiveIdx, ha]
    · cases i with
      | zero =>
        rw [List.getElem?_cons_zero] at h
        injection h with h
        rw [h] at ha
        exact absurd hx ha
      | succ i =>
        rw [List.getElem?_cons_succ] at h
        have hrec := ih i x h hx
        simp [findActiveIdx, ha, hrec]

/-- C4: for a stamped list covering `[0, d]` (any `d > 0`, non-empty input)
and any position `0 ≤ p ≤ d`, the sync loop's linear scan finds a segment —
it never returns none. -/
theorem c4_thm (d : ℚ) (segs : List TextSegment) (p : ℚ) (hd : 0 < d) (hs : segs ≠ [])
    (hp0 : 0 ≤ p) (hpd : p ≤ d) :
    (findActiveIdx p (calculateTimestamps d segs)).isSome = true := by
  have hnpos : 0 < segs.length := List.length_pos.mpr hs
  have hP0 : winStart d segs 0 ≤ p := by rw [winStart_zero]; exact hp0
  obtain ⟨i, hilt, hlo, hhi⟩ :
      ∃ i, i < segs.length ∧ winStart d segs i ≤ p ∧ p ≤ winStart d segs (i + 1) := by
    set i0 := Nat.findGreatest (fun i => winStart d segs i ≤ p) segs.length with hi0
    have hi0P : winStart d segs i0 ≤ p :=
      Nat.findGreatest_spec (P := fun i => winStart d segs i ≤ p)
        (Nat.zero_le segs.length) hP0
    have hi0n : i0 ≤ segs.length := Nat.findGreatest_le segs.length
    rcases lt_or_eq_of_le hi0n with hlt | heq
    · refine ⟨i0, hlt, hi0P, le_of_lt ?_⟩
      have hng := Nat.findGreatest_is_greatest (Nat.lt_succ_self i0) hlt
      exact lt_of_not_le hng
    · have hwn : winStart d segs segs.length = d := winStart_length segs hs
      have hpe : p = d := le_antisymm hpd (by rw [← hwn, ← heq]; exact hi0P)
      refine ⟨segs.length - 1, Nat.sub_lt hnpos one_pos, ?_, ?_⟩
      · have hmono := winStart_mono (le_of_lt hd) segs (Nat.sub_le segs.length 1)
        rw [hwn] at hmono
        rw [hpe]
        exact hmono
      · have h1 : segs.length - 1 + 1 = segs.length := by omega
        rw [h1, hwn, hpe]
  have hseg : segs[i]? = some segs[i] := List.getElem?_eq_getElem hilt
  have hout := calculateTimestamps_getElem? d segs i
  rw [hseg, Option.map_some'] at hout
  apply findActiveIdx_isSome _ i _ hout
  simp only [segMatches, Bool.and_eq_true, Bool.or_eq_true, decide_eq_true_eq]
  exact ⟨hlo, Or.inr hhi⟩

/-- Witness for C4: position 7 inside the worked example's 23-second span. -/
theorem c4_witness :
    (0 : ℚ) < 23 ∧ exSegs ≠ [] ∧ (0 : ℚ) ≤ 7 ∧ (7 : ℚ) ≤ 23 ∧
    (findActiveIdx 7 (calculateTimestamps 23 exSegs)).isSome = true :=
  ⟨by decide, by decide, by decide, by decide,
    c4_thm 23 exSegs 7 (by decide) (by decide) (by decide) (by decide)⟩

/-- C7 counterexample: one word segment at duration −1 is stamped with
endTime −1, not 0 — for a negative duration the windows scale by the
negative duration instead of collapsing to 0 as the claim states. -/
theorem c7_counterexample :
    (calculateTimestamps (-1) [segX]).map (fun s => s.endTime) = [some (-1)] ∧
    some (-1 : ℚ) ≠ some (0 : ℚ) := by
  have hx : segWeight segX = 3 := by decide
  norm_num [calculateTimestamps, stampSegs, totalWeight, hx]

/-- C7 (amended): the allocator maps the empty list to itself for any
duration, and for a non-empty list at duration exactly 0 every segment's
share is zero and all windows collapse to `[0, 0]`; the function is total,
so no failure is thrown.  (For strictly negative durations the windows
scale by the negative duration — see the counterexample.) -/
theorem c7_amended_thm (d : ℚ) (segs : List TextSegment) (_hs : segs ≠ []) :
    calculateTimestamps d [] = [] ∧
    ∀ (i : Nat) (si : TextSegment), (calculateTimestamps 0 segs)[i]? = some si →
      si.startTime = some 0 ∧ si.endTime = some 0 := by
  refine ⟨rfl, ?_⟩
  intro i si h
  have hf := calcTs_fields h
  constructor
  · rw [hf.1]; simp [winStart]
  · rw [hf.2]; simp [winStart]

/-- Witness for C7's amended theorem. -/
theorem c7_witness :
    exSegs ≠ [] ∧
    (calculateTimestamps 5 [] = [] ∧
      ∀ (i : Nat) (si : TextSegment), (calculateTimestamps 0 exSegs)[i]? = some si →
        si.startTime = some 0 ∧ si.endTime = some 0) :=
  ⟨by decide, c7_amended_thm 5 exSegs (by decide)⟩

/-- The stamping loop never changes text, isWord or translation. -/
lemma stampSegs_proj (tw d acc : ℚ) (segs : List TextSegment) :
    (stampSegs tw d acc segs).map (fun s => (s.text, s.isWord, s.translation)) =
      segs.map (fun s => (s.text, s.isWord, s.translation)) := by
  induction segs generalizing acc with
  | nil => rfl
  | cons s rest ih => simp [stampSegs, ih]

/-- C9: for every duration and segment list the allocator returns a list of
the same length whose text, isWord and translation agree position-wise with
the input — only the timing fields are added. -/
theorem c9_thm (d : ℚ) (segs : List TextSegment) :
    (calculateTimestamps d segs).length = segs.length ∧
    (calculateTimestamps d segs).map (fun s => (s.text, s.isWord, s.translation)) =
      segs.map (fun s => (s.text, s.isWord, s.translation)) :=
  ⟨calculateTimestamps_length d segs, stampSegs_proj _ _ _ _⟩

/-- C10: every weight is at least 2, so a non-empty list has strictly
positive total weight (the divisor of every per-segment share is non-zero),
and on the empty list the allocator performs no division at all (it returns
the list unchanged before any share is computed). -/
theorem c10_thm (d : ℚ) (segs : List TextSegment) (hs : segs ≠ []) :
    (∀ s : TextSegment, 2 ≤ segWeight s) ∧ 0 < totalWeight segs ∧
    calculateTimestamps d [] = [] :=
  ⟨two_le_segWeight, totalWeight_pos hs, rfl⟩

/-- Witness for C10. -/
theorem c10_witness :
    exSegs ≠ [] ∧ ((∀ s : TextSegment, 2 ≤ segWeight s) ∧ 0 < totalWeight exSegs ∧
      calculateTimestamps 7 [] = []) :=
  ⟨by decide, c10_thm 7 exSegs (by decide)⟩

/-- A vocabulary pair (types.ts `WordPair`). -/
structure WordPair where
  german : String
  bulgarian : String
deriving DecidableEq, Repr

/-- The three UI phases of `suggestopediaStep`. -/
inductive SuggStep
  | intro
  | bulgarian
  | fixation
deriving DecidableEq, Repr

/-- One suspended continuation of `runSuggestopediaCycle(idx)`: `pc` names
the await it is parked at — 1: after `speak(word.german)`, 2: after the
500ms settle, 3: after `speak(word.bulgarian)`, 4: after the second 500ms
settle, 5: after the 4.5s fixation dwell. -/
structure Chain where
  idx : Nat
  pc : Nat
deriving DecidableEq, Repr

/-- The suggestopedia-relevant state of the component: `active` models both
`suggestopediaActive` and `suggestopediaActiveRef` (always written
together), `wordIndex` is `suggestopediaWordIndex`, `step` is
`suggestopediaStep`, `chains` the suspended async cycle continuations, and
`log` a ghost trace recording, for every `setSuggestopediaStep` call, the
cycle index that performed the write (for observing which run mutated the
visible phase — it does not influence the dynamics). -/
structure SuggState where
  active : Bool
  wordIndex : Nat
  step : SuggStep
  chains : List Chain
  log : List (Nat × SuggStep)
deriving DecidableEq, Repr

/-- `stopSuggestopedia` (App.tsx lines 243–247): clears the active flag and
ref and cancels any live speech (speech has no further effect on this
state). -/
def stopSugg (s : SuggState) : SuggState :=
  { s with active := false }

/-- The synchronous prefix of `runSuggestopediaCycle(index)` (App.tsx lines
277–300), up to its first await: it first writes `wordIndex` (the
unconditional `setSuggestopediaWordIndex(index)`), then checks
`index >= vocabulary.length || !vocabulary[index] || !activeRef` —
for a well-formed list the middle disjunct coincides with the first — and
aborts (stopping if out of range); otherwise it sets the intro phase,
starts the German speech and suspends at pc 1. -/
def cycleEntry (vocab : List WordPair) (index : Nat) (s : SuggState) : SuggState :=
  if vocab.length ≤ index then
    stopSugg { s with wordIndex := index }
  else if s.active = false then
    { s with wordIndex := index }
  else
    { s with wordIndex := index, step := .intro,
             log := s.log ++ [(index, .intro)],
             chains := s.chains ++ [⟨index, 1⟩] }

/-- Resuming a suspended continuation `c` of the cycle (App.tsx lines
301–334).  Each arm is the code between two awaits: the checks are exactly
the source's `if (!suggestopediaActiveRef.current) return;` lines — note
there is no check between the translation speech and the following settle
delay (pc 3), and none of the checks consults the cycle's own index. -/
def resumeChain (vocab : List WordPair) (c : Chain) (s : SuggState) : SuggState :=
  match c.pc with
  | 1 => if s.active then { s with chains := s.chains ++ [⟨c.idx, 2⟩] } else s
  | 2 => if s.active then
           { s with step := .bulgarian, log := s.log ++ [(c.idx, .bulgarian)],
                    chains := s.chains ++ [⟨c.idx, 3⟩] }
         else s
  | 3 => { s with chains := s.chains ++ [⟨c.idx, 4⟩] }
  | 4 => if s.active then
           { s with step := .fixation, log := s.log ++ [(c.idx, .fixation)],
                    chains := s.chains ++ [⟨c.idx, 5⟩] }
         else s
  | 5 => if s.active then cycleEntry vocab (c.idx + 1) s else s
  | _ => s

/-- `startSuggestopedia` (App.tsx lines 236–241): set active (state and
ref), reset the index to 0, and run the cycle for index 0. -/
def startSugg (vocab : List WordPair) (s : SuggState) : SuggState :=
  cycleEntry vocab 0 { s with active := true, wordIndex := 0 }

/-- `skipToNextWord` (App.tsx lines 249–275): cancel current speech, then
if `wordIndex + 1` is in range, write the new index and invoke the cycle at
it (the old chain is left suspended — only the activity check can kill it);
otherwise stop the session. -/
def skipToNextWord (vocab : List WordPair) (s : SuggState) : SuggState :=
  if s.wordIndex + 1 < vocab.length then
    cycleEntry vocab (s.wordIndex + 1) { s with wordIndex := s.wordIndex + 1 }
  else stopSugg s

/-- An event on the single cooperative timeline: a user action, or the
scheduler resuming the pending continuation at position `k` (its awaited
speech/timer completed). -/
inductive SuggEvent
  | start
  | stop
  | skip
  | resume (k : Nat)
deriving DecidableEq, Repr

/-- One step of the event semantics: user actions run the corresponding
handler; `resume k` removes the `k`-th suspended continuation and runs it. -/
def suggStepEv (vocab : List WordPair) (s : SuggState) : SuggEvent → SuggState
  | .start => startSugg vocab s
  | .stop => stopSugg s
  | .skip => skipToNextWord vocab s
  | .resume k =>
    match s.chains[k]? with
    | none => s
    | some c => resumeChain vocab c { s with chains := s.chains.eraseIdx k }

/-- Run a trace of events from a state. -/
def runEvents (vocab : List WordPair) (s : SuggState) (evs : List SuggEvent) : SuggState :=
  evs.foldl (suggStepEv vocab) s

/-- The component's initial suggestopedia state. -/
def initSugg : SuggState :=
  { active := false, wordIndex := 0, step := .intro, chains := [], log := [] }

/-- A three-item vocabulary used by the concrete traces. -/
def vocabEx : List WordPair :=
  [{ german := "Hund", bulgarian := "kuche" },
   { german := "Katze", bulgarian := "kotka" },
   { german := "Haus", bulgarian := "kushta" }]

/-- C1: the claimed property fails on the code.  With three vocabulary
items: start the session (run 0 suspends awaiting its intro speech), skip
(run 1 starts and suspends awaiting its intro speech, run 0 is left
suspended), then let run 0's two pending awaits complete.  Run 0 passes
both `suggestopediaActiveRef` checks — the session is still active and no
generation token exists — and writes the visible phase `bulgarian` (ghost
log entry `(0, bulgarian)`, recorded after the skip), while the latest run
(chain `⟨1, 1⟩`) is still parked in its intro await and never wrote
`bulgarian`.  The observed phase therefore reflects the superseded run
after a skip, contradicting the claim. -/
theorem c1_skip_race :
    runEvents vocabEx initSugg [.start, .skip, .resume 0, .resume 1] =
      { active := true, wordIndex := 1, step := .bulgarian,
        chains := [⟨1, 1⟩, ⟨0, 3⟩],
        log := [(0, .intro), (1, .intro), (0, .bulgarian)] } := by decide

/-- C6: evaluating the code on stop-then-skip.  Start, stop, skip, then
resume the leftover continuation: the session stays inactive (`active`
remains false), the skipped-to cycle invocation aborts at its activity
check without spawning a chain or writing a phase (the ghost log still
holds only the original intro write), and the leftover continuation dies
at its own check.  The session is not resurrected.  The code, however,
maintains no generation/cancellation token at all — cancellation rests
solely on the boolean `suggestopediaActiveRef` — so the claim's
"cancellation token strictly increases" clause has no realization in the
code. -/
theorem c6_stop_skip_no_resurrect :
    runEvents vocabEx initSugg [.start, .stop, .skip, .resume 0] =
      { active := false, wordIndex := 1, step := .intro,
        chains := [], log := [(0, .intro)] } := by decide

/-- The three phase writes one full cycle performs for item `j`. -/
def tripLog (j : Nat) : List (Nat × SuggStep) :=
  [(j, .intro), (j, .bulgarian), (j, .fixation)]

/-- The phase writes of `k` consecutive uninterrupted cycles starting at
item `i`. -/
def visitLogFrom : Nat → Nat → List (Nat × SuggStep)
  | _, 0 => []
  | i, k + 1 => tripLog i ++ visitLogFrom (i + 1) k

/-- The item indices whose intro phase ran, in writing order. -/
def introVisits (lg : List (Nat × SuggStep)) : List Nat :=
  (lg.filter (fun e => decide (e.2 = SuggStep.intro))).map Prod.fst

lemma introVisits_append (a b : List (Nat × SuggStep)) :
    introVisits (a ++ b) = introVisits a ++ introVisits b := by
  simp [introVisits]

lemma introVisits_visitLogFrom : ∀ (k i : Nat),
    introVisits (visitLogFrom i k) = List.range' i k := by
  intro k
  induction k with
  | zero => intro i; rfl
  | succ k ih =>
    intro i
    show introVisits (tripLog i ++ visitLogFrom (i + 1) k) = List.range' i (k + 1)
    rw [introVisits_append, ih]
    rfl

/-- Running one uninterrupted cycle chain to completion: from any active
state with no other pending chains, entering the cycle at item `i` with
`k = vocab.length - i` items remaining and resuming the single pending
continuation `5 k` times deactivates the session with `wordIndex` driven
past the end, no pending work, and exactly the phase writes of items
`i, i+1, …` in order appended to the ghost log. -/
lemma run_cycles (vocab : List WordPair) :
    ∀ (k i : Nat) (s : SuggState), s.active = true → s.chains = [] →
      i + k = vocab.length →
      runEvents vocab (cycleEntry vocab i s) (List.replicate (5 * k) (.resume 0)) =
        { active := false, wordIndex := vocab.length,
          step := if k = 0 then s.step else .fixation,
          chains := [], log := s.log ++ visitLogFrom i k } := by
  intro k
  induction k with
  | zero =>
    intro i s ha hc hik
    have hi : i = vocab.length := by omega
    subst hi
    simp [runEvents, cycleEntry, stopSugg, visitLogFrom, hc]
  | succ k ih =>
    intro i s ha hc hik
    have hilt : i < vocab.length := by omega
    have hentry : cycleEntry vocab i s =
        { s with wordIndex := i, step := .intro,
                 log := s.log ++ [(i, .intro)], chains := [⟨i, 1⟩] } := by
      simp only [cycleEntry]
      rw [if_neg (by omega), if_neg (by simp [ha])]
      simp [hc]
    rw [hentry]
    have hsplit : (5 : Nat) * (k + 1) = 5 + 5 * k := by ring
    rw [hsplit, List.replicate_add]
    unfold runEvents
    rw [List.foldl_append]
    have hstep5 : List.foldl (suggStepEv vocab)
        { s with wordIndex := i, step := .intro,
                 log := s.log ++ [(i, .intro)], chains := [⟨i, 1⟩] }
        (List.replicate 5 (.resume 0)) =
        cycleEntry vocab (i + 1)
          { s with wordIndex := i, step := .fixation,
                   log := s.log ++ [(i, .intro), (i, .bulgarian), (i, .fixation)],
                   chains := [] } := by
      simp [List.replicate, suggStepEv, resumeChain, ha]
    rw [hstep5]
    have hrec := ih (i + 1)
      { s with wordIndex := i, step := .fixation,
               log := s.log ++ [(i, .intro), (i, .bulgarian), (i, .fixation)],
               chains := [] } ha rfl (by omega)
    unfold runEvents at hrec
    rw [hrec]
    simp [visitLogFrom, tripLog]

/-- A session started on `vocab` and left to run with no user interaction:
`startSuggestopedia` followed by every pending await completing in order
(5 suspension points per item). -/
def uninterruptedRun (vocab : List WordPair) : SuggState :=
  runEvents vocab initSugg (.start :: List.replicate (5 * vocab.length) (.resume 0))

/-- C5: starting a session on a non-empty vocabulary and letting it run
uninterrupted (no skip or stop) runs the intro phase of every vocabulary
index exactly once, in list order, and then deactivates the session once
the index passes the end of the list, leaving no pending work. -/
theorem c5_thm (vocab : List WordPair) (_hv : vocab ≠ []) :
    (uninterruptedRun vocab).active = false ∧
    (uninterruptedRun vocab).wordIndex = vocab.length ∧
    (uninterruptedRun vocab).chains = [] ∧
    introVisits (uninterruptedRun vocab).log = List.range vocab.length := by
  have h0 : uninterruptedRun vocab =
      runEvents vocab (cycleEntry vocab 0 { initSugg with active := true, wordIndex := 0 })
        (List.replicate (5 * vocab.length) (.resume 0)) := rfl
  have hrc := run_cycles vocab vocab.length 0
    { initSugg with active := true, wordIndex := 0 } rfl rfl (by omega)
  rw [h0, hrc]
  refine ⟨rfl, rfl, rfl, ?_⟩
  show introVisits ([] ++ visitLogFrom 0 vocab.length) = List.range vocab.length
  rw [List.nil_append, introVisits_visitLogFrom, List.range_eq_range']

/-- A one-item vocabulary for the C5 witness. -/
def vocabOne : List WordPair := [{ german := "Hund", bulgarian := "kuche" }]

/-- Witness for C5 on a one-item vocabulary. -/
theorem c5_witness :
    vocabOne ≠ [] ∧
    ((uninterruptedRun vocabOne).active = false ∧
     (uninterruptedRun vocabOne).wordIndex = vocabOne.length ∧
     (uninterruptedRun vocabOne).chains = [] ∧
     introVisits (uninterruptedRun vocabOne).log = List.range vocabOne.length) :=
  ⟨by decide, c5_thm vocabOne (by decide)⟩

/-- The two callbacks the speech synthesis engine can fire on an
utterance. -/
inductive SpeechEvent
  | ended
  | errored
deriving DecidableEq, Repr

/-- How a JS promise can settle. -/
inductive PromiseSettle
  | resolved
  | rejected
deriving DecidableEq, Repr

/-- The observable state of one `speak` call: the utterance retained in
`currentUtteranceRef` (kept to prevent garbage collection) and the
settlement state of the returned promise. -/
structure SpeakRun where
  utterance : Option (String × String × ℚ)
  settled : Option PromiseSettle
deriving DecidableEq, Repr

/-- `speak(text, lang, rate)` (App.tsx lines 210–233) after its synchronous
body: any previously speaking utterance has been cancelled, a new utterance
with the given text, language and rate is stored in `currentUtteranceRef`,
`onend`/`onerror` are installed, and the returned promise is unsettled. -/
def speakStart (text lang : String) (rate : ℚ) : SpeakRun :=
  { utterance := some (text, lang, rate), settled := none }

/-- The installed callbacks: `onend` clears the ref and calls `resolve()`;
`onerror` logs a warning, clears the ref, and also calls `resolve()`
("resolve anyway to not block loop") — `reject` is never called.  A settled
promise ignores further callbacks (JS promise semantics). -/
def speakEvent : SpeakRun → SpeechEvent → SpeakRun
  | ⟨_, none⟩, .ended => ⟨none, some .resolved⟩
  | ⟨_, none⟩, .errored => ⟨none, some .resolved⟩
  | s, _ => s

/-- The state of a `speak` call after a sequence of engine callbacks. -/
def speakTrace (text lang : String) (rate : ℚ) (evs : List SpeechEvent) : SpeakRun :=
  evs.foldl speakEvent (speakStart text lang rate)

lemma speakEvent_settled_stays (v : PromiseSettle) :
    ∀ (evs : List SpeechEvent) (u : Option (String × String × ℚ)),
      List.foldl speakEvent ⟨u, some v⟩ evs = ⟨u, some v⟩ := by
  intro evs
  induction evs with
  | nil => intro u; rfl
  | cons e t ih =>
    intro u
    have h1 : speakEvent ⟨u, some v⟩ e = ⟨u, some v⟩ := by cases e <;> rfl
    show List.foldl speakEvent (speakEvent ⟨u, some v⟩ e) t = _
    rw [h1]
    exact ih u

/-- C8: once the engine fires any callback sequence (at least one of
completion or error — the speech API fires one of them for every spoken or
failed utterance), the promise `speak` returned is settled resolved: it
never rejects, and an error settles it exactly as completion does, so an
error is indistinguishable from completion for sequencing purposes. -/
theorem c8_thm (text lang : String) (rate : ℚ) (evs : List SpeechEvent) (hne : evs ≠ []) :
    (speakTrace text lang rate evs).settled = some .resolved ∧
    (∀ s : SpeakRun, speakEvent s .errored = speakEvent s .ended) := by
  constructor
  · rcases evs with _ | ⟨e, t⟩
    · exact absurd rfl hne
    · show (List.foldl speakEvent (speakEvent (speakStart text lang rate) e) t).settled = _
      have h1 : speakEvent (speakStart text lang rate) e =
          ⟨none, some .resolved⟩ := by cases e <;> rfl
      rw [h1, speakEvent_settled_stays]
  · intro s
    rcases s with ⟨u, _ | v⟩ <;> rfl

/-- Witness for C8: a single error callback settles the promise resolved. -/
theorem c8_witness :
    ([SpeechEvent.errored] ≠ []) ∧
    ((speakTrace "Hund" "de-DE" (4 / 5) [SpeechEvent.errored]).settled = some .resolved ∧
     (∀ s : SpeakRun, speakEvent s .errored = speakEvent s .ended)) :=
  ⟨by decide, c8_thm "Hund" "de-DE" (4 / 5) [SpeechEvent.errored] (by decide)⟩
